import Mathlib

/-!
Shallow embedding of the latent-traversal visualization module
(`viz/visualize.py`) of the `disentangling-vae` repository, together with
theorems settling the frozen specification claims about it.

Conventions.  Pixel values are rationals (the tensors hold real-valued
samples); machine-integer effects (the `int32` heat-map buffer) are modelled
explicitly with truncation and a two's-complement wrap.  Imperative buffer
writes are modelled as sequential functional updates starting from a
zero-initialized buffer, exactly mirroring the Python loops.  Fallible code
(out-of-range tensor indexing, the empty metric store, the tensor-comparison
error raised on tied sort keys) is modelled with `Option` / explicit error
outcomes.
-/

/-! ### Heat maps (`Visualizer.generate_heat_maps`, lines 31-71)

`means` models the `(N, latent_dim)` tensor of per-sample latent means as a
list of `N` rows.  The heat-map buffer is allocated with
`dtype=torch.int32` (line 59), so every written value is cast
float -> int32: truncation toward zero, wrapped to 32 bits. -/

/-- Truncation toward zero of a rational, as performed by a float -> int
cast (`Int.tdiv` is C-style division, rounding toward zero; see
`qtrunc_eq_floor_or_ceil` for the floor/ceiling characterization). -/
def qtrunc (q : ℚ) : ℤ :=
  q.num.tdiv q.den

/-- Two's-complement reduction of an integer to 32 bits. -/
def wrap32 (z : ℤ) : ℤ :=
  (z + 2 ^ 31) % 2 ^ 32 - 2 ^ 31

/-- The cast performed when a rational mean is stored into the `int32`
heat-map buffer (line 64). -/
def int32cast (q : ℚ) : ℤ :=
  wrap32 (qtrunc q)

/-- `means[i, d]`: fetch sample `i`, latent dimension `d`; `none` models the
out-of-range `IndexError` raised by tensor indexing. -/
def getMean (means : List (List ℚ)) (i d : Nat) : Option ℚ :=
  (means.get? i).bind (fun row => row.get? d)

/-- Inner loop of line 63-64: for fixed column `y`, write cells
`(0, y) .. (n-1, y)` of the buffer in order, reading sample `w * y + x` for
cell `(x, y)`.  `none` models the `IndexError` on the first out-of-range
read. -/
def fillCols (means : List (List ℚ)) (d w y : Nat)
    (buf : Nat → Nat → ℤ) : Nat → Option (Nat → Nat → ℤ)
  | 0 => some buf
  | n + 1 =>
    match fillCols means d w y buf n with
    | none => none
    | some b =>
      match getMean means (w * y + n) d with
      | none => none
      | some v => some (fun x' y' => if x' = n ∧ y' = y then int32cast v else b x' y')

/-- Outer loop of line 62: columns `0 .. m-1` in order, each running the
inner loop over `h` rows. -/
def fillRows (means : List (List ℚ)) (d h w : Nat)
    (buf : Nat → Nat → ℤ) : Nat → Option (Nat → Nat → ℤ)
  | 0 => some buf
  | m + 1 =>
    match fillRows means d h w buf m with
    | none => none
    | some b => fillCols means d w m b h

/-- One latent dimension's raster: the double loop of lines 62-64, started
from the zero buffer of line 59. -/
def fillRaster (means : List (List ℚ)) (d h w : Nat) : Option (Nat → Nat → ℤ) :=
  fillRows means d h w (fun _ _ => 0) w

/-- Pixel `(x, y)` of dimension `d`'s raster, `none` when filling failed. -/
def rasterPix (means : List (List ℚ)) (d h w x y : Nat) : Option ℤ :=
  (fillRaster means d h w).map (fun b => b x y)

/-- Outcome of a `generate_heat_maps` call: an indexing error, an early
`return` of a raster (non-save mode, line 71), or normal completion. -/
inductive HMOutcome where
  | indexError : HMOutcome
  | returned : (Nat → Nat → ℤ) → HMOutcome
  | finished : HMOutcome

/-- The per-dimension loop of lines 61-71.  In save mode each filled raster
is written out (collected here, tagged with the dimension number used as the
filename suffix) and the loop continues; in non-save mode the function
returns the current raster after the first iteration. -/
def heatMapLoop (save : Bool) (means : List (List ℚ)) (h w : Nat) :
    List Nat → List (Nat × (Nat → Nat → ℤ)) × HMOutcome
  | [] => ([], .finished)
  | d :: rest =>
    match fillRaster means d h w with
    | none => ([], .indexError)
    | some buf =>
      match save with
      | true =>
        let r := heatMapLoop save means h w rest
        ((d, buf) :: r.1, r.2)
      | false => ([], .returned buf)

/-- `Visualizer.generate_heat_maps`: runs the dimension loop over
`range latent_dim` with grid size `(h, w)`. -/
def generate_heat_maps (save : Bool) (means : List (List ℚ)) (D h w : Nat) :
    List (Nat × (Nat → Nat → ℤ)) × HMOutcome :=
  heatMapLoop save means h w (List.range D)

/-- Number of rasters a call emitted: saved images plus a returned tensor. -/
def emittedCount (r : List (Nat × (Nat → Nat → ℤ)) × HMOutcome) : Nat :=
  r.1.length + (match r.2 with | .returned _ => 1 | _ => 0)

/-! ### Metric store and the all-dimensions traversal sort
(`read_avg_kl_from_file`, lines 277-282, and
`Visualizer.all_latent_traversals`, lines 183-224)

`csv.reader` yields rows of strings, so the KL scores reaching the sort on
line 200 are *strings*.  Python compares strings lexicographically by code
point, and `sorted(zip(avg_kl_list, latent_samples), reverse=True)` compares
the latent-sample tensors whenever two score strings are equal, which raises
a `RuntimeError` (truth value of a multi-element tensor); equality of score
strings is therefore modelled as a failure. -/

/-- Python string `<`: lexicographic comparison by code point. -/
def pyStrLtChars : List Char → List Char → Bool
  | [], [] => false
  | [], _ :: _ => true
  | _ :: _, [] => false
  | a :: as, b :: bs =>
    if a.toNat < b.toNat then true
    else if b.toNat < a.toNat then false
    else pyStrLtChars as bs

/-- Python `<` on strings. -/
def pyStrLt (a b : String) : Bool :=
  pyStrLtChars a.data b.data

/-- `read_avg_kl_from_file` (lines 277-282): the last CSV record with its
first field dropped; `none` models the `IndexError` on an empty store. -/
def read_avg_kl_from_file (records : List (List String)) : Option (List String) :=
  match records.getLast? with
  | none => none
  | some last => some (last.drop 1)

/-- The permutation of traversal rows produced by line 200.  `zip` truncates
to the shorter of the score list and the `latent_dim` traversals; with all
(truncated) score strings distinct, Python's stable sort with `reverse=True`
arranges the pairs in descending lexicographic string order; with a
duplicated score string the tuple comparison falls through to the tensors
and raises, modelled as `none`. -/
def sortedTraversalOrder (kl : List String) (D : Nat) : Option (List Nat) :=
  let keys := kl.take D
  if keys.Nodup then
    some (List.insertionSort
      (fun i j => pyStrLt (keys.getD i "") (keys.getD j "") = false)
      (List.range keys.length))
  else none

/-- `Visualizer.all_latent_traversals`, reduced to the row order it composes:
read the score strings from the metric store (line 195), then sort the `D`
per-dimension traversal rows by them (line 200).  `none` means the call
raised before composing any image. -/
def all_latent_traversals (D : Nat) (records : List (List String)) : Option (List Nat) :=
  match read_avg_kl_from_file records with
  | none => none
  | some kl => sortedTraversalOrder kl D

/-- Modelled from the spec: the row order the specification asks for —
indices sorted by the *numeric* scores in descending order, stable under
ties (equal scores keep their original relative order). -/
def specDescendingStableOrder (scores : List ℚ) : List Nat :=
  List.insertionSort
    (fun i j => scores.getD j 0 ≤ scores.getD i 0)
    (List.range scores.length)

/-! ### Extended canvas of the all-dimensions traversal summary
(lines 207-213)

`new_width = int(1.3 * all_traversal_im.width)` and
`new_size = (all_traversal_im.height, new_width)` are passed to
`PIL.Image.new`, whose `size` argument is `(width, height)`. -/

/-- The `(width, height)` of the canvas created on line 212, as PIL
interprets the `new_size` tuple built on lines 210-211 from a grid image of
size `gridW` by `gridH` (`int(1.3 * w)` is `13 * w / 10` in natural-number
division for every size where the float product does not cross an
integer). -/
def all_traversals_canvas (gridW gridH : Nat) : Nat × Nat :=
  (gridH, 13 * gridW / 10)

/-! ### Grid reordering (`reorder_img`, lines 240-274)

An image is a channel-row-column indexed array of rationals with explicit
dimensions.  `reorder_img` allocates `torch.zeros(orig_img.size())`
(line 261) and then, for each `new_idx, old_idx` pair of
`enumerate(reorder)`, copies the pixel block of rows (or columns)
`[old_idx * (padding + dim) + padding, + dim)` onto
`[new_idx * (padding + dim) + padding, + dim)` (lines 264-272); the
sequential slice assignments are modelled as a left fold of functional
updates over the enumerated permutation, started from the zero buffer. -/

/-- An image: channel count, height, width, and the pixel array. -/
structure Img where
  chans : Nat
  hgt : Nat
  wdt : Nat
  pix : Nat → Nat → Nat → ℚ

/-- One row-block slice assignment
`buf[:, sNew:sNew+len, :] = src[:, sOld:sOld+len, :]` (line 268). -/
def copyRowBlock (buf src : Nat → Nat → Nat → ℚ) (sNew sOld len : Nat) :
    Nat → Nat → Nat → ℚ :=
  fun c i j => if sNew ≤ i ∧ i < sNew + len then src c (sOld + (i - sNew)) j else buf c i j

/-- One column-block slice assignment
`buf[:, :, sNew:sNew+len] = src[:, :, sOld:sOld+len]` (line 272). -/
def copyColBlock (buf src : Nat → Nat → Nat → ℚ) (sNew sOld len : Nat) :
    Nat → Nat → Nat → ℚ :=
  fun c i j => if sNew ≤ j ∧ j < sNew + len then src c i (sOld + (j - sNew)) else buf c i j

/-- Loop body for `by_row=True` at pair `(new_idx, old_idx)` (lines 266-268). -/
def rowStep (orig : Img) (height padding : Nat)
    (buf : Nat → Nat → Nat → ℚ) (e : Nat × Nat) : Nat → Nat → Nat → ℚ :=
  copyRowBlock buf orig.pix (e.1 * (padding + height) + padding)
    (e.2 * (padding + height) + padding) height

/-- Loop body for `by_row=False` at pair `(new_idx, old_idx)` (lines 270-272). -/
def colStep (orig : Img) (width padding : Nat)
    (buf : Nat → Nat → Nat → ℚ) (e : Nat × Nat) : Nat → Nat → Nat → ℚ :=
  copyColBlock buf orig.pix (e.1 * (padding + width) + padding)
    (e.2 * (padding + width) + padding) width

/-- `reorder_img(orig_img, reorder, by_row, img_size=(_, height, width),
padding)`: the output has the input's size and is built by folding the block
copies over `enumerate(reorder)` starting from the zero buffer.  (The
constant `by_row` test is hoisted out of the loop.) -/
def reorder_img (orig : Img) (reorder : List Nat) (by_row : Bool)
    (height width padding : Nat) : Img :=
  { chans := orig.chans
    hgt := orig.hgt
    wdt := orig.wdt
    pix :=
      if by_row then
        (List.enum reorder).foldl (rowStep orig height padding) (fun _ _ _ => 0)
      else
        (List.enum reorder).foldl (colStep orig width padding) (fun _ _ _ => 0) }

/-- Which cell block a pixel index lies in: `blockIdx p d i = some k` iff
`k * (p + d) + p ≤ i < k * (p + d) + p + d`, i.e. index `i` is inside the
`k`-th copied block for cell extent `d` and padding `p`; `none` on the
gutter/padding pixels, which no block copy ever writes. -/
def blockIdx (p d i : Nat) : Option Nat :=
  if p + d = 0 then none
  else if p ≤ i % (p + d) then some (i / (p + d)) else none

/-- `true` iff some `new_idx < n` block covers pixel index `i`, i.e. the
address is written by one of the `n` copies of the reorder loop. -/
def covered (p d n i : Nat) : Bool :=
  match blockIdx p d i with
  | some k => decide (k < n)
  | none => false

/-- A concrete 1-channel 3-by-3 grid image holding the `make_grid` padding
value 10 in every pixel; with cell size 1 and padding 1 its single row (and
single column) of cells tiles it exactly: 3 = 1 * (1 + 1) + 1. -/
def gridEx : Img :=
  { chans := 1, hgt := 3, wdt := 3, pix := fun _ _ _ => 10 }

/-! #### Geometry lemmas for `reorder_img` -/

lemma blockIdx_eq_some_iff {p d i k : Nat} :
    blockIdx p d i = some k ↔ k * (p + d) + p ≤ i ∧ i < k * (p + d) + p + d := by
  unfold blockIdx
  rcases Nat.eq_zero_or_pos (p + d) with hz | hpos
  · have hp : p = 0 := by omega
    have hd : d = 0 := by omega
    simp [hz, hp, hd]
  · rw [if_neg (by omega)]
    have hmod := Nat.div_add_mod i (p + d)
    have hlt : i % (p + d) < p + d := Nat.mod_lt _ hpos
    have hmc : k * (p + d) = (p + d) * k := Nat.mul_comm _ _
    generalize hq : i / (p + d) = q at hmod ⊢
    generalize hr : i % (p + d) = r at hmod hlt ⊢
    have hmcq : q * (p + d) = (p + d) * q := Nat.mul_comm _ _
    constructor
    · intro h
      by_cases hge : p ≤ r
      · rw [if_pos hge] at h
        have hk : q = k := Option.some.inj h
        subst hk
        omega
      · rw [if_neg hge] at h
        exact Option.noConfusion h
    · rintro ⟨hlo, hhi⟩
      have hexp1 : (p + d) * (k + 1) = (p + d) * k + (p + d) := by ring
      have hexp2 : (p + d) * (q + 1) = (p + d) * q + (p + d) := by ring
      have hq1 : (p + d) * q < (p + d) * (k + 1) := by omega
      have hq2 : (p + d) * k < (p + d) * (q + 1) := by omega
      have hqk1 : q < k + 1 := Nat.lt_of_mul_lt_mul_left hq1
      have hqk2 : k < q + 1 := Nat.lt_of_mul_lt_mul_left hq2
      have hqk : q = k := by omega
      subst hqk
      rw [if_pos (by omega)]

lemma blockIdx_eq_none_iff {p d i : Nat} :
    blockIdx p d i = none ↔ ∀ k, ¬(k * (p + d) + p ≤ i ∧ i < k * (p + d) + p + d) := by
  constructor
  · intro h k hk
    rw [← blockIdx_eq_some_iff] at hk
    rw [h] at hk
    exact Option.noConfusion hk
  · intro h
    cases hb : blockIdx p d i with
    | none => rfl
    | some k =>
      exact absurd (blockIdx_eq_some_iff.mp hb) (h k)

/-- Closed form of the `by_row=True` copy loop, folded over
`enumerate(reorder)` starting at counter `s`: a pixel in block `k` (with
`s ≤ k < s + reorder.length`) reads the source block named by entry `k - s`
of the permutation; any other pixel keeps the accumulator's value. -/
lemma rowFold_pix (orig : Img) (hgt p : Nat) :
    ∀ (l : List Nat) (s : Nat) (buf : Nat → Nat → Nat → ℚ) (c i j : Nat),
      ((List.enumFrom s l).foldl (rowStep orig hgt p) buf) c i j =
        match blockIdx p hgt i with
        | none => buf c i j
        | some k =>
          if s ≤ k ∧ k < s + l.length then
            orig.pix c (l.getD (k - s) 0 * (p + hgt) + p + (i - (k * (p + hgt) + p))) j
          else buf c i j
  | [], s, buf, c, i, j => by
    cases hb : blockIdx p hgt i with
    | none => simp [List.enumFrom]
    | some k =>
      simp only [List.enumFrom, List.foldl_nil, List.length_nil]
      rw [if_neg (by omega)]
  | a :: t, s, buf, c, i, j => by
    have hstep : (List.enumFrom s (a :: t)).foldl (rowStep orig hgt p) buf =
        (List.enumFrom (s + 1) t).foldl (rowStep orig hgt p) (rowStep orig hgt p buf (s, a)) := by
      simp [List.enumFrom]
    rw [hstep, rowFold_pix orig hgt p t (s + 1) (rowStep orig hgt p buf (s, a)) c i j]
    have hnotin : blockIdx p hgt i ≠ some s →
        rowStep orig hgt p buf (s, a) c i j = buf c i j := by
      intro hne
      unfold rowStep copyRowBlock
      rw [if_neg]
      intro hin
      exact hne (blockIdx_eq_some_iff.mpr (by simpa using hin))
    cases hb : blockIdx p hgt i with
    | none =>
      show rowStep orig hgt p buf (s, a) c i j = buf c i j
      exact hnotin (by rw [hb]; exact fun h => Option.noConfusion h)
    | some k =>
      dsimp only
      by_cases hks : k = s
      · subst hks
        rw [if_neg (by omega), if_pos (by simp only [List.length_cons]; omega)]
        show rowStep orig hgt p buf (k, a) c i j = _
        unfold rowStep copyRowBlock
        have hmem := blockIdx_eq_some_iff.mp hb
        rw [if_pos (by simpa using hmem)]
        simp
      · have hne : blockIdx p hgt i ≠ some s := by
          rw [hb]
          intro h
          exact hks (Option.some.inj h)
        by_cases hkgt : s + 1 ≤ k
        · by_cases hlt : k < s + 1 + t.length
          · rw [if_pos ⟨hkgt, hlt⟩, if_pos (by simp only [List.length_cons]; omega)]
            have hgd : t.getD (k - (s + 1)) 0 = (a :: t).getD (k - s) 0 := by
              have hks' : k - s = (k - (s + 1)) + 1 := by omega
              rw [hks', List.getD_cons_succ]
            rw [hgd]
          · rw [if_neg (by omega), if_neg (by simp only [List.length_cons]; omega)]
            exact hnotin hne
        · rw [if_neg (by omega), if_neg (by omega)]
          exact hnotin hne

/-- Closed form of the `by_row=False` copy loop: as `rowFold_pix`, with the
column index taking the role of the row index. -/
lemma colFold_pix (orig : Img) (wdt p : Nat) :
    ∀ (l : List Nat) (s : Nat) (buf : Nat → Nat → Nat → ℚ) (c i j : Nat),
      ((List.enumFrom s l).foldl (colStep orig wdt p) buf) c i j =
        match blockIdx p wdt j with
        | none => buf c i j
        | some k =>
          if s ≤ k ∧ k < s + l.length then
            orig.pix c i (l.getD (k - s) 0 * (p + wdt) + p + (j - (k * (p + wdt) + p)))
          else buf c i j
  | [], s, buf, c, i, j => by
    cases hb : blockIdx p wdt j with
    | none => simp [List.enumFrom]
    | some k =>
      simp only [List.enumFrom, List.foldl_nil, List.length_nil]
      rw [if_neg (by omega)]
  | a :: t, s, buf, c, i, j => by
    have hstep : (List.enumFrom s (a :: t)).foldl (colStep orig wdt p) buf =
        (List.enumFrom (s + 1) t).foldl (colStep orig wdt p) (colStep orig wdt p buf (s, a)) := by
      simp [List.enumFrom]
    rw [hstep, colFold_pix orig wdt p t (s + 1) (colStep orig wdt p buf (s, a)) c i j]
    have hnotin : blockIdx p wdt j ≠ some s →
        colStep orig wdt p buf (s, a) c i j = buf c i j := by
      intro hne
      unfold colStep copyColBlock
      rw [if_neg]
      intro hin
      exact hne (blockIdx_eq_some_iff.mpr (by simpa using hin))
    cases hb : blockIdx p wdt j with
    | none =>
      show colStep orig wdt p buf (s, a) c i j = buf c i j
      exact hnotin (by rw [hb]; exact fun h => Option.noConfusion h)
    | some k =>
      dsimp only
      by_cases hks : k = s
      · subst hks
        rw [if_neg (by omega), if_pos (by simp only [List.length_cons]; omega)]
        show colStep orig wdt p buf (k, a) c i j = _
        unfold colStep copyColBlock
        have hmem := blockIdx_eq_some_iff.mp hb
        rw [if_pos (by simpa using hmem)]
        simp
      · have hne : blockIdx p wdt j ≠ some s := by
          rw [hb]
          intro h
          exact hks (Option.some.inj h)
        by_cases hkgt : s + 1 ≤ k
        · by_cases hlt : k < s + 1 + t.length
          · rw [if_pos ⟨hkgt, hlt⟩, if_pos (by simp only [List.length_cons]; omega)]
            have hgd : t.getD (k - (s + 1)) 0 = (a :: t).getD (k - s) 0 := by
              have hks' : k - s = (k - (s + 1)) + 1 := by omega
              rw [hks', List.getD_cons_succ]
            rw [hgd]
          · rw [if_neg (by omega), if_neg (by simp only [List.length_cons]; omega)]
            exact hnotin hne
        · rw [if_neg (by omega), if_neg (by omega)]
          exact hnotin hne

/-- Pixel-level closed form of `reorder_img` with `by_row=True`. -/
lemma reorder_img_pix_row (orig : Img) (reorder : List Nat) (hgt wdt p c i j : Nat) :
    (reorder_img orig reorder true hgt wdt p).pix c i j =
      match blockIdx p hgt i with
      | none => 0
      | some k =>
        if k < reorder.length then
          orig.pix c (reorder.getD k 0 * (p + hgt) + p + (i - (k * (p + hgt) + p))) j
        else 0 := by
  show ((List.enum reorder).foldl (rowStep orig hgt p) (fun _ _ _ => 0)) c i j = _
  rw [show List.enum reorder = List.enumFrom 0 reorder from rfl]
  rw [rowFold_pix orig hgt p reorder 0 (fun _ _ _ => 0) c i j]
  cases hb : blockIdx p hgt i with
  | none => rfl
  | some k =>
    dsimp only
    by_cases hk : k < reorder.length
    · rw [if_pos (by omega), if_pos hk]
      simp
    · rw [if_neg (by omega), if_neg hk]

/-- Pixel-level closed form of `reorder_img` with `by_row=False`. -/
lemma reorder_img_pix_col (orig : Img) (reorder : List Nat) (hgt wdt p c i j : Nat) :
    (reorder_img orig reorder false hgt wdt p).pix c i j =
      match blockIdx p wdt j with
      | none => 0
      | some k =>
        if k < reorder.length then
          orig.pix c i (reorder.getD k 0 * (p + wdt) + p + (j - (k * (p + wdt) + p)))
        else 0 := by
  show ((List.enum reorder).foldl (colStep orig wdt p) (fun _ _ _ => 0)) c i j = _
  rw [show List.enum reorder = List.enumFrom 0 reorder from rfl]
  rw [colFold_pix orig wdt p reorder 0 (fun _ _ _ => 0) c i j]
  cases hb : blockIdx p wdt j with
  | none => rfl
  | some k =>
    dsimp only
    by_cases hk : k < reorder.length
    · rw [if_pos (by omega), if_pos hk]
      simp
    · rw [if_neg (by omega), if_neg hk]

/-! ### The prior-sampling flag (`Visualizer.samples`, lines 117-136)

Lines 125-131 cache the sampler's `sample_prior` flag, set it `true`, run
`traverse_grid`, restore the cached value, and only then decode.  The decode
step does not touch the flag, so a decode failure cannot leak the `true`
setting. -/

/-- Observable flag history of one `Visualizer.samples` call. -/
structure SamplesTrace where
  flagDuringTraverse : Bool
  flagAfterCall : Bool
  decodeSucceeded : Bool

/-- `Visualizer.samples`, reduced to its effect on the sampler's
`sample_prior` flag.  `initFlag` is the flag's value on entry; `decodeOk`
tells whether the subsequent `_decode_latents` call succeeds. -/
def samples (initFlag : Bool) (decodeOk : Bool) : SamplesTrace :=
  let cached_sample_prior := initFlag
  let flagSetForTraverse := true
  let flagRestored := cached_sample_prior
  { flagDuringTraverse := flagSetForTraverse
    flagAfterCall := flagRestored
    decodeSucceeded := decodeOk }

/-! #### Heat-map loop lemmas -/

lemma fillCols_pix (means : List (List ℚ)) (d w y : Nat) :
    ∀ (n : Nat) (buf b : Nat → Nat → ℤ),
      fillCols means d w y buf n = some b →
      (∀ x' y', (y' ≠ y ∨ n ≤ x') → b x' y' = buf x' y') ∧
      (∀ x v, x < n → getMean means (w * y + x) d = some v → b x y = int32cast v)
  | 0, buf, b => by
    intro h
    have hb : buf = b := Option.some.inj h
    subst hb
    exact ⟨fun _ _ _ => rfl, fun x v hx _ => absurd hx (by omega)⟩
  | n + 1, buf, b => by
    intro h
    unfold fillCols at h
    cases h0 : fillCols means d w y buf n with
    | none => rw [h0] at h; exact Option.noConfusion h
    | some b0 =>
      rw [h0] at h
      cases hv : getMean means (w * y + n) d with
      | none => rw [hv] at h; exact Option.noConfusion h
      | some v0 =>
        rw [hv] at h
        have hb : b = fun x' y' => if x' = n ∧ y' = y then int32cast v0 else b0 x' y' :=
          (Option.some.inj h).symm
        have ih := fillCols_pix means d w y n buf b0 h0
        constructor
        · intro x' y' hout
          rw [hb]
          dsimp only
          rw [if_neg (by omega)]
          exact ih.1 x' y' (by omega)
        · intro x v hx hvx
          rw [hb]
          dsimp only
          by_cases hxn : x = n
          · subst hxn
            rw [if_pos ⟨rfl, rfl⟩]
            rw [hv] at hvx
            rw [Option.some.inj hvx]
          · rw [if_neg (by omega)]
            exact ih.2 x v (by omega) hvx

lemma fillCols_none_iff (means : List (List ℚ)) (d w y : Nat) :
    ∀ (n : Nat) (buf : Nat → Nat → ℤ),
      (fillCols means d w y buf n = none ↔
        ∃ x, x < n ∧ getMean means (w * y + x) d = none)
  | 0, buf => by
    simp [fillCols]
  | n + 1, buf => by
    unfold fillCols
    cases h0 : fillCols means d w y buf n with
    | none =>
      simp only [true_iff]
      rcases (fillCols_none_iff means d w y n buf).mp h0 with ⟨x, hx, hm⟩
      exact ⟨x, by omega, hm⟩
    | some b0 =>
      cases hv : getMean means (w * y + n) d with
      | none =>
        simp only [true_iff]
        exact ⟨n, by omega, hv⟩
      | some v0 =>
        refine ⟨fun hcontra => absurd hcontra (by simp), fun hex => ?_⟩
        exfalso
        rcases hex with ⟨x, hx, hm⟩
        by_cases hxn : x = n
        · subst hxn
          rw [hv] at hm
          exact Option.noConfusion hm
        · have : fillCols means d w y buf n = none :=
            (fillCols_none_iff means d w y n buf).mpr ⟨x, by omega, hm⟩
          rw [h0] at this
          exact Option.noConfusion this

lemma fillRows_pix (means : List (List ℚ)) (d h w : Nat) :
    ∀ (m : Nat) (buf b : Nat → Nat → ℤ),
      fillRows means d h w buf m = some b →
      (∀ x' y', (h ≤ x' ∨ m ≤ y') → b x' y' = buf x' y') ∧
      (∀ x y v, x < h → y < m → getMean means (w * y + x) d = some v →
        b x y = int32cast v)
  | 0, buf, b => by
    intro hm
    have hb : buf = b := Option.some.inj hm
    subst hb
    exact ⟨fun _ _ _ => rfl, fun x y v _ hy _ => absurd hy (by omega)⟩
  | m + 1, buf, b => by
    intro hm
    unfold fillRows at hm
    cases h0 : fillRows means d h w buf m with
    | none => rw [h0] at hm; exact Option.noConfusion hm
    | some b0 =>
      rw [h0] at hm
      have ih := fillRows_pix means d h w m buf b0 h0
      have hc := fillCols_pix means d w m h b0 b hm
      constructor
      · intro x' y' hout
        rw [hc.1 x' y' (by omega)]
        exact ih.1 x' y' (by omega)
      · intro x y v hx hy hv
        by_cases hym : y = m
        · subst hym
          exact hc.2 x v hx hv
        · rw [hc.1 x y (by omega)]
          exact ih.2 x y v hx (by omega) hv

lemma fillRows_none_iff (means : List (List ℚ)) (d h w : Nat) :
    ∀ (m : Nat) (buf : Nat → Nat → ℤ),
      (fillRows means d h w buf m = none ↔
        ∃ y, y < m ∧ ∃ x, x < h ∧ getMean means (w * y + x) d = none)
  | 0, buf => by
    simp [fillRows]
  | m + 1, buf => by
    unfold fillRows
    cases h0 : fillRows means d h w buf m with
    | none =>
      simp only [true_iff]
      rcases (fillRows_none_iff means d h w m buf).mp h0 with ⟨y, hy, hrest⟩
      exact ⟨y, by omega, hrest⟩
    | some b0 =>
      rw [fillCols_none_iff means d w m h b0]
      constructor
      · rintro ⟨x, hx, hm⟩
        exact ⟨m, by omega, x, hx, hm⟩
      · rintro ⟨y, hy, x, hx, hm⟩
        by_cases hym : y = m
        · subst hym
          exact ⟨x, hx, hm⟩
        · have : fillRows means d h w buf m = none :=
            (fillRows_none_iff means d h w m buf).mpr ⟨y, by omega, x, hx, hm⟩
          rw [h0] at this
          exact Option.noConfusion this

lemma fillRaster_pix {means : List (List ℚ)} {d h w : Nat} {b : Nat → Nat → ℤ}
    (hb : fillRaster means d h w = some b) :
    (∀ x y, (h ≤ x ∨ w ≤ y) → b x y = 0) ∧
    (∀ x y v, x < h → y < w → getMean means (w * y + x) d = some v →
      b x y = int32cast v) := by
  have := fillRows_pix means d h w w (fun _ _ => 0) b hb
  exact ⟨fun x y hout => this.1 x y hout, this.2⟩

lemma fillRaster_none_iff {means : List (List ℚ)} {d h w : Nat} :
    fillRaster means d h w = none ↔
      ∃ y, y < w ∧ ∃ x, x < h ∧ getMean means (w * y + x) d = none :=
  fillRows_none_iff means d h w w (fun _ _ => 0)

lemma getMean_eq_none_iff {means : List (List ℚ)} {i d : Nat}
    (hrows : ∀ row ∈ means, d < row.length) :
    (getMean means i d = none ↔ means.length ≤ i) := by
  unfold getMean
  cases hg : means.get? i with
  | none =>
    simp only [Option.none_bind, true_iff]
    exact List.get?_eq_none.mp hg
  | some row =>
    simp only [Option.some_bind]
    constructor
    · intro hr
      have hd : d < row.length := hrows row (List.get?_mem hg)
      have := List.get?_eq_none.mp hr
      omega
    · intro hlen
      have := List.get?_eq_none.mpr hlen
      rw [hg] at this
      exact Option.noConfusion this

lemma accessed_oob_iff {N h w : Nat} (hh : 1 ≤ h) (hw : 1 ≤ w) :
    ((∃ y, y < w ∧ ∃ x, x < h ∧ N ≤ w * y + x) ↔ N < w * (w - 1) + h) := by
  constructor
  · rintro ⟨y, hy, x, hx, hN⟩
    have hmul : w * y ≤ w * (w - 1) := Nat.mul_le_mul_left w (by omega)
    omega
  · intro hN
    exact ⟨w - 1, by omega, h - 1, by omega, by omega⟩

lemma heatMapLoop_save (means : List (List ℚ)) (h w : Nat) :
    ∀ dims : List Nat,
      (∀ d ∈ dims, (fillRaster means d h w).isSome) →
      (heatMapLoop true means h w dims).1.map Prod.fst = dims ∧
        (heatMapLoop true means h w dims).2 = .finished
  | [] => by
    intro _
    exact ⟨rfl, rfl⟩
  | d :: rest => by
    intro hall
    have hd := hall d (by simp)
    rcases Option.isSome_iff_exists.mp hd with ⟨b, hb⟩
    have ih := heatMapLoop_save means h w rest (fun d' hd' => hall d' (by simp [hd']))
    unfold heatMapLoop
    rw [hb]
    dsimp only
    simp only [List.map_cons]
    exact ⟨by rw [ih.1], ih.2⟩

lemma wrap32_eq_self {z : ℤ} (hlo : -(2 ^ 31) ≤ z) (hhi : z < 2 ^ 31) :
    wrap32 z = z := by
  unfold wrap32
  rw [Int.emod_eq_of_lt (by omega) (by omega)]
  omega

lemma qtrunc_eq_floor_or_ceil (q : ℚ) :
    qtrunc q = if 0 ≤ q then ⌊q⌋ else ⌈q⌉ := by
  unfold qtrunc
  by_cases h : 0 ≤ q
  · rw [if_pos h, Rat.floor_def]
    exact Int.tdiv_eq_ediv (Rat.num_nonneg.mpr h) (by positivity)
  · rw [if_neg h]
    have hnum : q.num = -(-q).num := by
      rw [Rat.num_neg_eq_neg_num]
      ring
    have hden : q.den = (-q).den := (Rat.den_neg_eq_den q).symm
    rw [hnum, hden, Int.neg_tdiv]
    have htd : (-q).num.tdiv ((-q).den : ℤ) = ⌊-q⌋ := by
      rw [Rat.floor_def]
      exact Int.tdiv_eq_ediv (Rat.num_nonneg.mpr (by linarith [lt_of_not_le h]))
        (by positivity)
    rw [htd, Int.floor_neg, neg_neg]

lemma qtrunc_intCast (z : ℤ) : qtrunc (z : ℚ) = z := by
  unfold qtrunc
  rw [Rat.num_intCast, Rat.den_intCast]
  exact Int.tdiv_one z

/-- The raster a non-save call returned, sampled at `(x, y)`; `none` when
the call did not return a raster. -/
def returnedVal (o : HMOutcome) (x y : Nat) : Option ℤ :=
  match o with
  | .returned b => some (b x y)
  | _ => none

/-- `true` iff the outcome is the indexing error. -/
def isIndexError : HMOutcome → Bool
  | .indexError => true
  | _ => false

/-- The `(16, 1)` means matrix of the specification's heat-map example: one
latent dimension, sample `i` holding the value `i` for `i = 0 .. 15`. -/
def heatMeans16 : List (List ℚ) :=
  (List.range 16).map (fun i => [(i : ℚ)])

/-- Five samples of a 1-dimensional model, used against the `h*w` bound of
the insufficient-samples claim at grid size `(3, 2)`. -/
def cexMeans5 : List (List ℚ) :=
  [[0], [0], [0], [0], [0]]

/-! #### Order lemmas for Python string comparison -/

lemma pyStrLtChars_irrefl : ∀ a, pyStrLtChars a a = false
  | [] => rfl
  | c :: t => by
    unfold pyStrLtChars
    rw [if_neg (Nat.lt_irrefl _), if_neg (Nat.lt_irrefl _)]
    exact pyStrLtChars_irrefl t

lemma pyStrLtChars_asymm : ∀ a b, pyStrLtChars a b = true → pyStrLtChars b a = false
  | [], [] => by intro h; exact absurd h (by simp [pyStrLtChars])
  | [], _ :: _ => by intro _; rfl
  | _ :: _, [] => by intro h; exact absurd h (by simp [pyStrLtChars])
  | x :: xs, y :: ys => by
    intro h
    unfold pyStrLtChars at h ⊢
    by_cases h1 : x.toNat < y.toNat
    · rw [if_neg (by omega), if_pos h1]
    · rw [if_neg h1] at h
      by_cases h2 : y.toNat < x.toNat
      · rw [if_pos h2] at h
        exact absurd h (by simp)
      · rw [if_neg h2] at h
        rw [if_neg h2, if_neg h1]
        exact pyStrLtChars_asymm xs ys h

lemma pyStrLtChars_cotrans : ∀ a c b, pyStrLtChars a c = true →
    pyStrLtChars a b = true ∨ pyStrLtChars b c = true
  | [], [], _ => by intro h; exact absurd h (by simp [pyStrLtChars])
  | _ :: _, [], _ => by intro h; exact absurd h (by simp [pyStrLtChars])
  | [], _ :: _, [] => by intro _; right; rfl
  | [], z :: zs, b :: bs => by intro _; left; rfl
  | x :: xs, z :: zs, [] => by intro _; right; rfl
  | x :: xs, z :: zs, y :: ys => by
    intro h
    unfold pyStrLtChars at h ⊢
    by_cases h1 : x.toNat < z.toNat
    · by_cases h2 : x.toNat < y.toNat
      · left
        rw [if_pos h2]
      · right
        rw [if_pos (by omega)]
    · rw [if_neg h1] at h
      by_cases h2 : z.toNat < x.toNat
      · rw [if_pos h2] at h
        exact absurd h (by simp)
      · rw [if_neg h2] at h
        by_cases h3 : x.toNat < y.toNat
        · left
          rw [if_pos h3]
        · by_cases h4 : y.toNat < x.toNat
          · right
            rw [if_pos (by omega)]
          · rcases pyStrLtChars_cotrans xs zs ys h with h5 | h5
            · left
              rw [if_neg h3, if_neg h4]
              exact h5
            · right
              rw [if_neg (by omega), if_neg (by omega)]
              exact h5

lemma pyStrLt_asymm {a b : String} (h : pyStrLt a b = true) : pyStrLt b a = false :=
  pyStrLtChars_asymm a.data b.data h

lemma pyStrLt_cotrans {a c : String} (b : String) (h : pyStrLt a c = true) :
    pyStrLt a b = true ∨ pyStrLt b c = true :=
  pyStrLtChars_cotrans a.data c.data b.data h

/-! #### The failing-input evaluation for C1 (cex input) -/

/-- The metric store used to refute the numeric-order claim: one record with
scores `"2.0"` and `"10.0"` for a 2-dimensional model.  Numerically
2.0 < 10.0, but as Python strings `"2.0" > "10.0"` (code point of `'2'`
exceeds that of `'1'`). -/
def cexRecords : List (List String) :=
  [["0", "2.0", "10.0"]]

/-! ## Claim theorems -/

/-- C1 counterexample: for scores 2.0 and 10.0 the code composes the rows
in order `[0, 1]` — dimension 0 (score 2.0) first — although descending
numeric order (as the claim states, and as `specDescendingStableOrder`
computes on the numeric values 2 and 10) is `[1, 0]`: the sort compares the
CSV score *strings* lexicographically, not their numeric values. -/
theorem all_latent_traversals_numeric_order_cex :
    all_latent_traversals 2 cexRecords = some [0, 1] ∧
      specDescendingStableOrder [2, 10] = [1, 0] ∧
      ([0, 1] : List Nat) ≠ [1, 0] := by
  refine ⟨by decide, by decide, by decide⟩

/-- C1 (amended): the rows of the all-dimensions traversal summary are
composed in descending *lexicographic code-point* order of the score
strings read from the metric store (`zip`-truncated to the number of
dimensions), and any composed output requires the truncated score strings
to be pairwise distinct — two equal score strings make the tuple comparison
fall through to the latent-sample tensors and raise, so no stable tie order
is ever produced.  Formally: whenever the call returns a row order `p`, the
truncated keys are `Nodup`, `p` is a permutation of the row indices, and
along `p` the keys are sorted descending (`pyStrLt later earlier = false`
never fails, i.e. each earlier key is `≥` each later key). -/
theorem all_latent_traversals_sorted (D : Nat) (records : List (List String))
    (kl : List String) (p : List Nat)
    (hread : read_avg_kl_from_file records = some kl)
    (hsome : all_latent_traversals D records = some p) :
    (kl.take D).Nodup ∧
      p.Perm (List.range (kl.take D).length) ∧
      p.Sorted (fun i j =>
        pyStrLt ((kl.take D).getD i "") ((kl.take D).getD j "") = false) := by
  unfold all_latent_traversals at hsome
  rw [hread] at hsome
  unfold sortedTraversalOrder at hsome
  dsimp only at hsome
  by_cases hnd : (kl.take D).Nodup
  · rw [if_pos hnd] at hsome
    have hp := Option.some.inj hsome
    subst hp
    refine ⟨hnd, List.perm_insertionSort _ _, ?_⟩
    have htot : IsTotal Nat (fun i j =>
        pyStrLt ((kl.take D).getD i "") ((kl.take D).getD j "") = false) := by
      constructor
      intro i j
      by_cases h : pyStrLt ((kl.take D).getD i "") ((kl.take D).getD j "") = true
      · right
        exact pyStrLt_asymm h
      · left
        exact Bool.eq_false_iff.mpr h
    have htrans : IsTrans Nat (fun i j =>
        pyStrLt ((kl.take D).getD i "") ((kl.take D).getD j "") = false) := by
      constructor
      intro i j k hij hjk
      by_contra hik
      have hik' : pyStrLt ((kl.take D).getD i "") ((kl.take D).getD k "") = true := by
        exact eq_true_of_ne_false hik
      rcases pyStrLt_cotrans ((kl.take D).getD j "") hik' with h | h
      · rw [hij] at h
        exact Bool.noConfusion h
      · rw [hjk] at h
        exact Bool.noConfusion h
    exact List.sorted_insertionSort _ _
  · rw [if_neg hnd] at hsome
    exact Option.noConfusion hsome

/-- Witness for C1 (amended) at the concrete store `cexRecords` with two
dimensions: the returned order `[0, 1]` is a permutation of `range 2`,
sorted descending in the string order. -/
theorem all_latent_traversals_sorted_witness :
    (["2.0", "10.0"].take 2).Nodup ∧
      ([0, 1] : List Nat).Perm (List.range (["2.0", "10.0"].take 2).length) ∧
      ([0, 1] : List Nat).Sorted (fun i j =>
        pyStrLt ((["2.0", "10.0"].take 2).getD i "")
          ((["2.0", "10.0"].take 2).getD j "") = false) :=
  all_latent_traversals_sorted 2 cexRecords ["2.0", "10.0"] [0, 1] (by decide) (by decide)

/-- C2 (code bug): for a 100-wide, 50-high grid image the code builds the
text canvas as 50 pixels wide and 130 pixels high, because line 211 packs
`(height, new_width)` into the tuple handed to `PIL.Image.new`, whose size
argument is `(width, height)`.  The claim (canvas height = grid height 50,
canvas width = floor(1.3 * grid width) = 130) names the transposed pair. -/
theorem all_traversals_canvas_swapped :
    all_traversals_canvas 100 50 = (50, 130) ∧
      all_traversals_canvas 100 50 ≠ (13 * 100 / 10, 50) := by
  decide

/-- C9 (confirmed): `Visualizer.samples` restores the sampler's
`sample_prior` flag to its entry value before decoding, so the flag after
the call equals the flag before the call whether or not the decode step
succeeds; during the `traverse_grid` call the flag is `true`. -/
theorem samples_flag_restored (initFlag decodeOk : Bool) :
    (samples initFlag decodeOk).flagAfterCall = initFlag ∧
      (samples initFlag decodeOk).flagDuringTraverse = true ∧
      (samples initFlag decodeOk).decodeSucceeded = decodeOk :=
  ⟨rfl, rfl, rfl⟩

/-- C8 (confirmed): with zero records in the metric store,
`read_avg_kl_from_file` fails, and `all_latent_traversals` consequently
fails before composing any image, for every latent dimensionality. -/
theorem all_latent_traversals_empty_store (D : Nat) :
    read_avg_kl_from_file [] = none ∧ all_latent_traversals D [] = none :=
  ⟨rfl, rfl⟩

/-- C4 (confirmed): `reorder_img` keeps the input's size, and any output
pixel whose (row, for `by_row=True`; column, for `by_row=False`) index is
not covered by a copied block of the permutation is `0` — the value of the
fresh `torch.zeros` buffer of line 261 — never a stale pixel of the source
image; the input image itself is untouched (the model is a pure function of
`orig`). -/
theorem reorder_img_fresh_zero (orig : Img) (reorder : List Nat) (by_row : Bool)
    (hgt wdt p c i j : Nat)
    (hrow : by_row = true → covered p hgt reorder.length i = false)
    (hcol : by_row = false → covered p wdt reorder.length j = false) :
    (reorder_img orig reorder by_row hgt wdt p).chans = orig.chans ∧
      (reorder_img orig reorder by_row hgt wdt p).hgt = orig.hgt ∧
      (reorder_img orig reorder by_row hgt wdt p).wdt = orig.wdt ∧
      (reorder_img orig reorder by_row hgt wdt p).pix c i j = 0 := by
  refine ⟨rfl, rfl, rfl, ?_⟩
  cases by_row with
  | true =>
    rw [reorder_img_pix_row]
    have hcv := hrow rfl
    cases hb : blockIdx p hgt i with
    | none => rfl
    | some k =>
      unfold covered at hcv
      rw [hb] at hcv
      dsimp only at hcv ⊢
      rw [if_neg (by simpa using hcv)]
  | false =>
    rw [reorder_img_pix_col]
    have hcv := hcol rfl
    cases hb : blockIdx p wdt j with
    | none => rfl
    | some k =>
      unfold covered at hcv
      rw [hb] at hcv
      dsimp only at hcv ⊢
      rw [if_neg (by simpa using hcv)]

/-- Witness for C4 at a concrete input: the gutter pixel `(0,0,0)` of the
3-by-3 padding-value-10 grid is uncovered under the identity permutation,
and the output holds `0` there while sizes are preserved. -/
theorem reorder_img_fresh_zero_witness :
    (reorder_img gridEx [0] true 1 1 1).chans = gridEx.chans ∧
      (reorder_img gridEx [0] true 1 1 1).hgt = gridEx.hgt ∧
      (reorder_img gridEx [0] true 1 1 1).wdt = gridEx.wdt ∧
      (reorder_img gridEx [0] true 1 1 1).pix 0 0 0 = 0 :=
  reorder_img_fresh_zero gridEx [0] true 1 1 1 0 0 0 (by decide) (by decide)

/-- C3 counterexample: on the exactly tiled grid `gridEx` (one cell of size
1, padding 1, so height 3 = 1 * (1 + 1) + 1), reordering rows with the
identity permutation `[0]` zeroes the top padding row: the output pixel
`(0,0,0)` is `0` while the input holds the padding value `10`, so the result
is not pixel-for-pixel equal to the input. -/
theorem reorder_img_identity_cex :
    gridEx.hgt = 1 * (1 + 1) + 1 ∧
      (reorder_img gridEx [0] true 1 1 1).pix 0 0 0 = 0 ∧
      gridEx.pix 0 0 0 = 10 ∧
      (reorder_img gridEx [0] true 1 1 1).pix 0 0 0 ≠ gridEx.pix 0 0 0 := by
  refine ⟨rfl, ?_, rfl, ?_⟩ <;> decide

/-- C3 (amended): on a grid whose reordered dimension is exactly tiled
(`n` cells of extent `hgt` rows, resp. `wdt` columns, with padding `p`),
`reorder_img` with the identity permutation `range n` reproduces the input
exactly on every pixel covered by a copied cell block, and writes `0` on
every gutter/padding pixel. -/
theorem reorder_img_identity (orig : Img) (n hgt wdt p c i j : Nat)
    (_hH : orig.hgt = n * (p + hgt) + p) (_hW : orig.wdt = n * (p + wdt) + p) :
    (reorder_img orig (List.range n) true hgt wdt p).pix c i j =
        (if covered p hgt n i then orig.pix c i j else 0) ∧
      (reorder_img orig (List.range n) false hgt wdt p).pix c i j =
        (if covered p wdt n j then orig.pix c i j else 0) := by
  constructor
  · rw [reorder_img_pix_row]
    cases hb : blockIdx p hgt i with
    | none =>
      rw [if_neg (by unfold covered; rw [hb]; exact fun h => Bool.noConfusion h)]
    | some k =>
      dsimp only
      by_cases hk : k < n
      · rw [if_pos (by simpa using hk),
          if_pos (by unfold covered; rw [hb]; simpa using hk)]
        have hlo := (blockIdx_eq_some_iff.mp hb).1
        have hgd : (List.range n).getD k 0 = k := by
          rw [List.getD_eq_getElem?_getD, List.getElem?_range hk]
          rfl
        rw [hgd]
        have harg : k * (p + hgt) + p + (i - (k * (p + hgt) + p)) = i := by omega
        rw [harg]
      · rw [if_neg (by simpa using hk),
          if_neg (by unfold covered; rw [hb]; simpa using hk)]
  · rw [reorder_img_pix_col]
    cases hb : blockIdx p wdt j with
    | none =>
      rw [if_neg (by unfold covered; rw [hb]; exact fun h => Bool.noConfusion h)]
    | some k =>
      dsimp only
      by_cases hk : k < n
      · rw [if_pos (by simpa using hk),
          if_pos (by unfold covered; rw [hb]; simpa using hk)]
        have hlo := (blockIdx_eq_some_iff.mp hb).1
        have hgd : (List.range n).getD k 0 = k := by
          rw [List.getD_eq_getElem?_getD, List.getElem?_range hk]
          rfl
        rw [hgd]
        have harg : k * (p + wdt) + p + (j - (k * (p + wdt) + p)) = j := by omega
        rw [harg]
      · rw [if_neg (by simpa using hk),
          if_neg (by unfold covered; rw [hb]; simpa using hk)]

/-- Witness for C3 (amended) at a concrete input: on `gridEx` (tiling
3 = 1 * (1 + 1) + 1 both ways), the covered centre pixel `(0,1,1)` is
preserved and behaves per the amended statement on both axes. -/
theorem reorder_img_identity_witness :
    (reorder_img gridEx (List.range 1) true 1 1 1).pix 0 1 1 =
        (if covered 1 1 1 1 then gridEx.pix 0 1 1 else 0) ∧
      (reorder_img gridEx (List.range 1) false 1 1 1).pix 0 1 1 =
        (if covered 1 1 1 1 then gridEx.pix 0 1 1 else 0) :=
  reorder_img_identity gridEx 1 1 1 1 0 1 1 rfl rfl

/-- C5 (amended): heat-map reshape — whenever filling succeeds, pixel
`(x, y)` of dimension `d`'s raster holds the *int32-cast* of the scalar
value at sample index `y*width + x` for that dimension (the buffer is
`int32`, so the raw scalar is truncated; for integer-valued statistics such
as the specification's `[0..15]` example the cast is the identity and the
pixel equals the scalar itself). -/
theorem generate_heat_maps_reshape (means : List (List ℚ)) (d h w x y : Nat) (v : ℚ)
    (hsome : (fillRaster means d h w).isSome = true)
    (hx : x < h) (hy : y < w)
    (hv : getMean means (w * y + x) d = some v) :
    rasterPix means d h w x y = some (int32cast v) := by
  rcases Option.isSome_iff_exists.mp hsome with ⟨b, hb⟩
  unfold rasterPix
  rw [hb]
  exact congrArg some ((fillRaster_pix hb).2 x y v hx hy hv)

/-- Witness for C5 (amended): the specification's 4-by-4 example with the
16-value sequence `[0..15]`: pixel `(1, 2)` holds the value at sample index
`4*2 + 1 = 9`, and the int32 cast of `9` is `9` itself. -/
theorem generate_heat_maps_reshape_witness :
    rasterPix heatMeans16 0 4 4 1 2 = some (int32cast 9) ∧ int32cast 9 = 9 :=
  ⟨generate_heat_maps_reshape heatMeans16 0 4 4 1 2 9 (by decide) (by decide) (by decide)
      (by decide),
    by decide⟩

/-- C5 counterexample: with the single scalar value `3/2` on a 1-by-1 grid,
the emitted pixel is the integer `1`, not the scalar value `3/2`: the
`int32` buffer drops the fractional part, so the pixel does *not* hold the
scalar value at its sample index, refuting the claim as stated. -/
theorem generate_heat_maps_reshape_cex :
    rasterPix [[mkRat 3 2]] 0 1 1 0 0 = some 1 ∧ (1 : ℚ) ≠ mkRat 3 2 := by
  exact ⟨by decide, by decide⟩

/-- C10 (confirmed): the heat-map buffer is 32-bit-integer valued, so the
pixel written for a scalar `v` is `qtrunc v` — `v` truncated toward zero to
its integer part (whenever that integer fits in int32) — and the written
pixel, read back as a rational, equals `v` exactly when `v` was already an
integer (`v.den = 1`): fractional parts are never carried. -/
theorem heat_map_int32_truncation (means : List (List ℚ)) (d h w x y : Nat) (v : ℚ)
    (hsome : (fillRaster means d h w).isSome = true)
    (hx : x < h) (hy : y < w)
    (hv : getMean means (w * y + x) d = some v)
    (hlo : -(2 ^ 31) ≤ qtrunc v) (hhi : qtrunc v < 2 ^ 31) :
    rasterPix means d h w x y = some (qtrunc v) ∧
      ((qtrunc v : ℚ) = v ↔ v.den = 1) := by
  constructor
  · rcases Option.isSome_iff_exists.mp hsome with ⟨b, hb⟩
    unfold rasterPix
    rw [hb]
    refine congrArg some ?_
    show b x y = qtrunc v
    rw [(fillRaster_pix hb).2 x y v hx hy hv]
    unfold int32cast
    exact wrap32_eq_self hlo hhi
  · constructor
    · intro hcast
      rw [← hcast]
      exact Rat.den_intCast _
    · intro hden
      have hnum : (v.num : ℚ) = v := (Rat.den_eq_one_iff v).mp hden
      rw [← hnum, qtrunc_intCast]

/-- Witness for C10 at the scalar `7/4` on a 1-by-1 grid: the pixel holds
`qtrunc (7/4) = 1`, and since `7/4` has denominator `4 ≠ 1` the pixel read
back as a rational differs from the scalar. -/
theorem heat_map_int32_truncation_witness :
    (rasterPix [[mkRat 7 4]] 0 1 1 0 0 = some (qtrunc (mkRat 7 4)) ∧
        ((qtrunc (mkRat 7 4) : ℚ) = mkRat 7 4 ↔ (mkRat 7 4).den = 1)) ∧
      qtrunc (mkRat 7 4) = 1 ∧ (mkRat 7 4).den = 4 :=
  ⟨heat_map_int32_truncation [[mkRat 7 4]] 0 1 1 0 0 (mkRat 7 4) (by decide) (by decide)
      (by decide) (by decide) (by decide) (by decide),
    by decide, by decide⟩

/-- C6 counterexample: with 2 latent dimensions on a 1-by-1 grid in return
mode, the call emits exactly one raster — the early `return` inside the
per-dimension loop (line 71) yields dimension 0's raster (pixel value `1`,
dimension 1's value `2` is never emitted) — a strict subset of the 2
dimensions the claim requires. -/
theorem generate_heat_maps_emission_cex :
    emittedCount (generate_heat_maps false [[1, 2]] 2 1 1) = 1 ∧
      (1 : Nat) ≠ 2 ∧
      returnedVal (generate_heat_maps false [[1, 2]] 2 1 1).2 0 0 = some 1 ∧
      (generate_heat_maps false [[1, 2]] 2 1 1).1.length = 0 := by
  exact ⟨by decide, by decide, by decide, by decide⟩

/-- C6 (amended): in save mode `generate_heat_maps` emits one raster per
latent dimension, each tagged with its dimension number as the filename
suffix, and finishes normally; in return mode it saves nothing and returns
only the *first* dimension's raster (the `return` sits inside the
per-dimension loop), whose pixels are the int32-cast dimension-0 scalars. -/
theorem generate_heat_maps_emission (means : List (List ℚ)) (D h w x y : Nat) (v : ℚ)
    (_hh : 1 ≤ h) (hw : 1 ≤ w) (hD : 1 ≤ D)
    (hN : w * (w - 1) + h ≤ means.length)
    (hrows : ∀ row ∈ means, D ≤ row.length)
    (hx : x < h) (hy : y < w)
    (hv : getMean means (w * y + x) 0 = some v) :
    ((generate_heat_maps true means D h w).1.map Prod.fst = List.range D ∧
        (generate_heat_maps true means D h w).2 = .finished) ∧
      ((generate_heat_maps false means D h w).1 = [] ∧
        returnedVal (generate_heat_maps false means D h w).2 x y =
          some (int32cast v)) := by
  have hnotfail : ∀ d ∈ List.range D, (fillRaster means d h w).isSome := by
    intro d hd
    have hdlt := List.mem_range.mp hd
    cases hfr : fillRaster means d h w with
    | some _ => rfl
    | none =>
      exfalso
      rcases fillRaster_none_iff.mp hfr with ⟨y', hy', x', hx', hm⟩
      have hrows' : ∀ row ∈ means, d < row.length := fun row hr =>
        lt_of_lt_of_le hdlt (hrows row hr)
      have hle := (getMean_eq_none_iff hrows').mp hm
      have hmul : w * y' ≤ w * (w - 1) := Nat.mul_le_mul_left w (by omega)
      omega
  constructor
  · exact heatMapLoop_save means h w (List.range D) hnotfail
  · obtain ⟨E, rfl⟩ : ∃ E, D = E + 1 := ⟨D - 1, by omega⟩
    have hrange : List.range (E + 1) = 0 :: List.range' 1 E := by
      rw [List.range_eq_range', List.range'_succ]
    have h0 : (fillRaster means 0 h w).isSome :=
      hnotfail 0 (List.mem_range.mpr (by omega))
    rcases Option.isSome_iff_exists.mp h0 with ⟨b, hb⟩
    unfold generate_heat_maps
    rw [hrange]
    unfold heatMapLoop
    rw [hb]
    dsimp only [returnedVal]
    exact ⟨rfl, congrArg some ((fillRaster_pix hb).2 x y v hx hy hv)⟩

/-- Witness for C6 (amended) on the 16-sample, 1-dimension example at grid
size 4-by-4: save mode tags the single raster with suffix 0 and finishes;
return mode returns dimension 0's raster with pixel `(3, 3)` holding the
cast of the value at sample index `4*3 + 3 = 15`. -/
theorem generate_heat_maps_emission_witness :
    ((generate_heat_maps true heatMeans16 1 4 4).1.map Prod.fst = List.range 1 ∧
        (generate_heat_maps true heatMeans16 1 4 4).2 = .finished) ∧
      ((generate_heat_maps false heatMeans16 1 4 4).1 = [] ∧
        returnedVal (generate_heat_maps false heatMeans16 1 4 4).2 3 3 =
          some (int32cast 15)) :=
  generate_heat_maps_emission heatMeans16 1 4 4 3 3 15 (by decide) (by decide) (by decide)
    (by decide) (by decide) (by decide) (by decide) (by decide)

/-- C7 counterexample: at grid size `(3, 2)` with only 5 scalar values —
fewer than `height*width = 6` — the call does *not* fail: the largest
sample index the loops access is `2*(2-1) + 3 - 1 = 4 < 5`, so a raster is
produced even though the claim demands an insufficient-samples failure. -/
theorem generate_heat_maps_insufficient_cex :
    cexMeans5.length = 5 ∧ (5 : Nat) < 3 * 2 ∧
      isIndexError (generate_heat_maps true cexMeans5 1 3 2).2 = false ∧
      emittedCount (generate_heat_maps true cexMeans5 1 3 2) = 1 := by
  exact ⟨by decide, by decide, by decide, by decide⟩

/-- C7 (amended): `generate_heat_maps` fails with the out-of-range indexing
error iff the number of supplied scalar rows is below `w*(w-1) + h` — the
code's actual requirement, which coincides with `h*w` only for square grids
or `w = 1` — and when it fails, it fails while filling the first
dimension's raster, before any raster is saved or returned. -/
theorem generate_heat_maps_error_iff (save : Bool) (means : List (List ℚ)) (D h w : Nat)
    (hh : 1 ≤ h) (hw : 1 ≤ w) (hD : 1 ≤ D)
    (hrows : ∀ row ∈ means, D ≤ row.length) :
    ((generate_heat_maps save means D h w).2 = .indexError ↔
        means.length < w * (w - 1) + h) ∧
      ((generate_heat_maps save means D h w).2 = .indexError →
        (generate_heat_maps save means D h w).1 = []) := by
  obtain ⟨E, rfl⟩ : ∃ E, D = E + 1 := ⟨D - 1, by omega⟩
  have hrange : List.range (E + 1) = 0 :: List.range' 1 E := by
    rw [List.range_eq_range', List.range'_succ]
  by_cases hfail : means.length < w * (w - 1) + h
  · have h0 : fillRaster means 0 h w = none := by
      rw [fillRaster_none_iff]
      have hrows' : ∀ row ∈ means, 0 < row.length := fun row hr =>
        lt_of_lt_of_le hD (hrows row hr)
      rcases (accessed_oob_iff hh hw).mpr hfail with ⟨y, hy, x, hx, hN⟩
      exact ⟨y, hy, x, hx, (getMean_eq_none_iff hrows').mpr hN⟩
    unfold generate_heat_maps
    rw [hrange]
    unfold heatMapLoop
    rw [h0]
    exact ⟨⟨fun _ => hfail, fun _ => rfl⟩, fun _ => rfl⟩
  · have hnotfail : ∀ d ∈ List.range (E + 1), (fillRaster means d h w).isSome := by
      intro d hd
      have hdlt := List.mem_range.mp hd
      cases hfr : fillRaster means d h w with
      | some _ => rfl
      | none =>
        exfalso
        rcases fillRaster_none_iff.mp hfr with ⟨y', hy', x', hx', hm⟩
        have hrows' : ∀ row ∈ means, d < row.length := fun row hr =>
          lt_of_lt_of_le hdlt (hrows row hr)
        have hle := (getMean_eq_none_iff hrows').mp hm
        exact absurd ((accessed_oob_iff hh hw).mp ⟨y', hy', x', hx', hle⟩) hfail
    cases save with
    | true =>
      have hs := heatMapLoop_save means h w (List.range (E + 1)) hnotfail
      unfold generate_heat_maps
      refine ⟨⟨fun herr => ?_, fun hlt => absurd hlt hfail⟩, fun herr => ?_⟩
      · rw [hs.2] at herr
        exact HMOutcome.noConfusion herr
      · rw [hs.2] at herr
        exact HMOutcome.noConfusion herr
    | false =>
      have h0 : (fillRaster means 0 h w).isSome :=
        hnotfail 0 (List.mem_range.mpr (by omega))
      rcases Option.isSome_iff_exists.mp h0 with ⟨b, hb⟩
      unfold generate_heat_maps
      rw [hrange]
      unfold heatMapLoop
      rw [hb]
      exact ⟨⟨fun herr => HMOutcome.noConfusion herr, fun hlt => absurd hlt hfail⟩,
        fun herr => HMOutcome.noConfusion herr⟩

/-- Witness for C7 (amended) on the 16-sample, 1-dimension example at grid
size 4-by-4: 16 samples meet the bound `4*3 + 4 = 16`, so no error occurs. -/
theorem generate_heat_maps_error_iff_witness :
    ((generate_heat_maps true heatMeans16 1 4 4).2 = HMOutcome.indexError ↔
        heatMeans16.length < 4 * (4 - 1) + 4) ∧
      ((generate_heat_maps true heatMeans16 1 4 4).2 = HMOutcome.indexError →
        (generate_heat_maps true heatMeans16 1 4 4).1 = []) :=
  generate_heat_maps_error_iff true heatMeans16 1 4 4 (by decide) (by decide) (by decide)
    (by decide)
